import Mathlib

/-!
Formal model of the harmonic-inference data pipeline of
`harmonic_inference/data/piece.py`, `harmonic_inference/utils/eval_utils.py`
and `harmonic_inference/utils/forces.py`.

Python lists are modelled as Lean `List`s, numpy boolean masks as `List Bool`,
score positions (tuples `(mc, mn_onset)` under Python's lexicographic tuple
comparison) as elements of an arbitrary linear order, and Python exceptions as
`Option`/`Except` results.
-/

namespace HarmonicInference

/-- Chord record, holding the fields that the reduction pass of
`get_score_piece_from_data_frames` reads or writes: the label (root, type,
inversion) compared by `is_repeated`, and the onset/offset/duration (in whole
notes) touched by `merge_with`.  Chord types are modelled as numbers (the
`ChordType` enum member index). -/
structure Chord where
  root : ℤ
  chord_type : ℕ
  inversion : ℕ
  onset : ℚ
  offset : ℚ
  duration : ℚ
deriving DecidableEq

/-- Modelled from the spec: `Chord.is_repeated` lives in `data/chord.py`, which
is not part of the sources here.  Per the spec, two adjacent chords are
"repeated" (mergeable) if they share root, type, inversion (checked only when
`use_inversion` is set) and are contiguous (the later chord starts where the
earlier one ends).  `next.is_repeated prev` asks whether `next` repeats the
earlier chord `prev`. -/
def Chord.is_repeated (next prev : Chord) (use_inversion : Bool) : Bool :=
  next.root == prev.root && next.chord_type == prev.chord_type &&
    (!use_inversion || next.inversion == prev.inversion) && next.onset == prev.offset

/-- Modelled from the spec: `Chord.merge_with` lives in `data/chord.py`, which
is not part of the sources here.  Per the spec, merging extends the earlier
chord's offset and duration to subsume the later one, leaving its label
(root, type, inversion) and onset unchanged. -/
def Chord.merge_with (prev next : Chord) : Chord :=
  { prev with offset := next.offset, duration := prev.duration + next.duration }

/-- Helper for `get_reduction_mask`: the mask entries for the tail of the input
list, where `prev` is the element just before the current head.  Entry `i`
(for the element at overall position `i + 1`) is `False` exactly when that
element repeats its original left neighbour. -/
def maskTail (rep : α → α → Bool) : α → List α → List Bool
  | _, [] => []
  | prev, y :: ys => (!(rep y prev)) :: maskTail rep y ys

/-- Embedding of `get_reduction_mask` (`piece.py`, lines 21-48).  The Python
code starts from an all-`True` mask and, for each adjacent pair
`(inputs[i], inputs[i+1])` of the *original* list, clears entry `i + 1` when
`inputs[i+1].is_repeated(inputs[i])`.  Each loop iteration writes a distinct
index, so the mask is: entry 0 is `True`, and entry `i + 1` is the negation of
the repeat test against the original left neighbour.  `rep next prev` stands
for `next.is_repeated(prev, **kwargs)`. -/
def get_reduction_mask (rep : α → α → Bool) : List α → List Bool
  | [] => []
  | x :: xs => true :: maskTail rep x xs

/-- Helper for `apply_mask_with_merge`: `last` is the chord most recently
appended to the output (Python's `chords[-1]`), which absorbs masked-out
elements via `merge`. -/
def applyTail (merge : α → α → α) (last : α) : List α → List Bool → List α
  | [], _ => [last]
  | _ :: _, [] => [last]
  | c :: cs, m :: ms =>
    if m then last :: applyTail merge c cs ms
    else applyTail merge (merge last c) cs ms

/-- Embedding of the mask application loop of `get_score_piece_from_data_frames`
(`piece.py`, lines 641-646): `for chord, mask in zip(chords_list, mask): if
mask: chords.append(chord) else: chords[-1].merge_with(chord)`.  The head mask
entry produced by `get_reduction_mask` is always `True`, so the first input is
always appended (were the head entry `False`, Python would fail indexing
`chords[-1]` on an empty list); the zip truncates to the shorter list. -/
def apply_mask_with_merge (merge : α → α → α) : List α → List Bool → List α
  | [], _ => []
  | _ :: _, [] => []
  | c :: cs, _ :: ms => applyTail merge c cs ms

/-- The complete "remove accidentally repeated chords" pass of
`get_score_piece_from_data_frames` (`piece.py`, lines 639-647): compute the
reduction mask on the original list, then apply it with merging. -/
def reduce_with_merge (rep : α → α → Bool) (merge : α → α → α) (l : List α) : List α :=
  apply_mask_with_merge merge l (get_reduction_mask rep l)

/-- The chord instantiation of the reduction pass, with
`rep next prev = next.is_repeated(prev, use_inversion=ui)`. -/
def reduce_chords (ui : Bool) (l : List Chord) : List Chord :=
  reduce_with_merge (fun next prev => next.is_repeated prev ui) Chord.merge_with l

/-- A note, reduced to the two fields the chord-to-note alignment of
`get_score_piece_from_data_frames` reads: its onset and offset position.
Positions `(mc, mn_onset)` are compared with Python's lexicographic tuple
order, modelled here by an arbitrary linear order `α`. -/
structure SNote (α : Type) where
  onset : α
  offset : α
deriving DecidableEq

/-- The body of the note-cursor `while` loop of
`get_score_piece_from_data_frames` (`piece.py`, lines 654-655):
`while note_index + 1 < len(notes) and notes[note_index].onset < chord.onset:
note_index += 1`.  The argument `suffix` is `notes.drop idx`, so
`note_index + 1 < len(notes)` becomes "`suffix` has at least two elements" and
`notes[note_index]` is the head of `suffix`; this lets the loop recurse
structurally. -/
def advanceFrom [LinearOrder α] (onset : α) : List (SNote α) → ℕ → ℕ
  | n :: n' :: rest, idx =>
    if n.onset < onset then advanceFrom onset (n' :: rest) (idx + 1) else idx
  | _, idx => idx

/-- The note-cursor advance for one chord: run the `while` loop starting at
note index `idx`. -/
def advance_while [LinearOrder α] (notes : List (SNote α)) (onset : α) (idx : ℕ) : ℕ :=
  advanceFrom onset (notes.drop idx) idx

/-- The chord-changes loop of `get_score_piece_from_data_frames`
(`piece.py`, lines 651-656): for each chord (represented by its onset), advance
the shared note cursor and record its position.  The cursor starts at 0 and is
never reset between chords. -/
def chord_changes_loop [LinearOrder α] (notes : List (SNote α)) : List α → ℕ → List ℕ
  | [], _ => []
  | c :: cs, idx =>
    let j := advance_while notes c idx
    j :: chord_changes_loop notes cs j

/-- The `chord_changes` array of a `ScorePiece` built by
`get_score_piece_from_data_frames`, one entry per (reduced) chord. -/
def piece_chord_changes [LinearOrder α] (notes : List (SNote α)) (chordOnsets : List α) :
    List ℕ :=
  chord_changes_loop notes chordOnsets 0

/-- Embedding of `get_range_start` (`piece.py`, lines 164-184): scan the notes
in order and return the index of the first note whose onset is at or after the
given range onset, or whose offset is strictly after it; return `len(notes)`
when no note qualifies. -/
def get_range_start [LinearOrder α] (onset : α) : List (SNote α) → ℕ
  | [] => 0
  | n :: ns =>
    if onset ≤ n.onset ∨ onset < n.offset then 0 else get_range_start onset ns + 1

/-- The `chord_ranges` list of `get_score_piece_from_data_frames`
(`piece.py`, lines 659-662): `[(get_range_start(chord.onset, notes), end) for
chord, end in zip(chords, list(chord_changes[1:]) + [len(notes)])]`. -/
def piece_chord_ranges [LinearOrder α] (notes : List (SNote α)) (chordOnsets : List α) :
    List (ℕ × ℕ) :=
  (chordOnsets.map fun c => get_range_start c notes).zip
    ((piece_chord_changes notes chordOnsets).tail ++ [notes.length])

/-- Numpy boolean-mask selection `arr[mask]`: keep the elements whose mask
entry is `True` (truncating to the shorter of the two lists). -/
def select_mask : List α → List Bool → List α
  | [], _ => []
  | _, [] => []
  | x :: xs, b :: bs => if b then x :: select_mask xs bs else select_mask xs bs

/-- Helper for `key_change_flags`: flags for the tail rows, each compared
against its predecessor row. -/
def keyFlagTail [DecidableEq ρ] : ρ → List ρ → List Bool
  | _, [] => []
  | prev, r :: rs => (decide (r ≠ prev)) :: keyFlagTail r rs

/-- The key-change detection of `get_score_piece_from_data_frames`
(`piece.py`, lines 674-675): `changes = key_cols.ne(key_cols.shift()).fillna(True)`
followed by `.any(axis=1)`.  Row 0 is always flagged (the shifted frame is NA
there), and row `i > 0` is flagged when its key columns differ from row
`i - 1`'s.  A row is modelled as a value of an arbitrary type `ρ` with
decidable equality (the tuple of the five key columns). -/
def key_change_flags [DecidableEq ρ] : List ρ → List Bool
  | [] => []
  | r :: rs => true :: keyFlagTail r rs

/-- The `key_changes` array of `get_score_piece_from_data_frames`
(`piece.py`, lines 677 and 689-691): `key_changes =
np.arange(len(changes))[changes.any(axis=1)]`, then, after building the key
objects, `key_changes = key_changes[non_repeated_mask]` where
`non_repeated_mask` is the key reduction mask.  `keys` and `rep` supply that
second mask. -/
def piece_key_changes [DecidableEq ρ] (keyRows : List ρ) (keys : List κ)
    (rep : κ → κ → Bool) : List ℕ :=
  select_mask (select_mask (List.range keyRows.length) (key_change_flags keyRows))
    (get_reduction_mask rep keys)

/-- Embedding of `get_chord_note_input` (`piece.py`, lines 104-161), keeping
the row layout and abstracting a row's numeric content by the index of the
note whose feature vector fills it: row `r` of the result is `some j` when the
source writes `notes[j].to_vec(...)` there, and `none` when the source leaves
the zero row it allocated with `np.zeros`.  The source computes
`window_onset_index = onset_index - window`, `window_offset_index =
offset_index + window` (Python ints, possibly out of bounds), clips them to
`first_note_index = max(window_onset_index, 0)` and `last_note_index =
min(window_offset_index, len(notes))`, allocates
`window_offset_index - window_onset_index` zero rows, and copies the vectors
of notes `first_note_index..last_note_index-1` into rows
`first_note_index - window_onset_index ..` in order. -/
def get_chord_note_input (numNotes onset_index offset_index window : ℕ) :
    List (Option ℕ) :=
  let wOn : ℤ := (onset_index : ℤ) - window
  let wOff : ℤ := (offset_index : ℤ) + window
  let first : ℤ := max wOn 0
  let last : ℤ := min wOff (numNotes : ℤ)
  (List.range (wOff - wOn).toNat).map fun (r : ℕ) =>
    if first ≤ wOn + (r : ℤ) ∧ wOn + (r : ℤ) < last then some (wOn + (r : ℤ)).toNat
    else none

/-- One row of a `results_df`, as read by `evaluate_features`: the
ground-truth and estimated value of each named feature (`gt_` and `est_`
columns, feature values modelled as integers) and the row's duration weight. -/
structure ResultRow where
  gt : String → ℤ
  est : String → ℤ
  duration : ℚ

/-- The per-row feature check of `evaluate_features` (`eval_utils.py`, lines
126-128): the conjunction, over the requested features, of
`gt_feature == est_feature`. -/
def row_matches (row : ResultRow) (features : List String) : Bool :=
  features.all fun f => row.gt f == row.est f

/-- Embedding of `evaluate_features` (`eval_utils.py`, lines 83-130): filter
the rows by the optional boolean mask, return 0 when no rows remain (the
source logs a warning and returns 0 instead of dividing by zero), and
otherwise return `np.average(correct_mask, weights=durations)`, the
duration-weighted fraction of rows whose requested features all match. -/
def evaluate_features (rows : List ResultRow) (features : List String)
    (filter : Option (List Bool)) : ℚ :=
  let rows := match filter with
    | none => rows
    | some m => select_mask rows m
  if rows.length = 0 then 0
  else
    (rows.map fun r => if row_matches r features then r.duration else 0).sum /
      (rows.map fun r => r.duration).sum

/-- A numpy slice assignment `arr[s:e] = v` on a per-note label array
(`eval_utils.py`, e.g. line 174). -/
def assign_range (arr : List L) (s e : ℕ) (v : L) : List L :=
  arr.mapIdx fun i x => if s ≤ i ∧ i < e then v else x

/-- A numpy slice assignment `arr[s:] = v` (`eval_utils.py`, e.g. line 187:
the final segment is broadcast through the end of the array). -/
def assign_from (arr : List L) (s : ℕ) (v : L) : List L :=
  arr.mapIdx fun i x => if s ≤ i then v else x

/-- The segment list actually iterated by the broadcast loops of
`get_results_df`: `zip(labels, changes, changes[1:])` (truncating to the
shortest, as Python's `zip` does). -/
def broadcast_segments (labels : List L) (changes : List ℕ) : List (L × ℕ × ℕ) :=
  labels.zip (changes.zip changes.tail)

/-- The ground-truth broadcast pattern of `get_results_df` (`eval_utils.py`,
lines 165-199 for chords, 229-240 for keys): start from an all-`default`
per-note array of length `n`, assign each segment's label over
`[start, end)` for `zip(labels, changes, changes[1:])`, then explicitly assign
the final label from the last change index through the end of the array. -/
def broadcast_labels (n : ℕ) (labels : List L) (changes : List ℕ) (default : L) :
    List L :=
  let arr := (broadcast_segments labels changes).foldl
    (fun a seg => assign_range a seg.2.1 seg.2.2 seg.1) (List.replicate n default)
  match labels.getLast?, changes.getLast? with
  | some v, some s => assign_from arr s v
  | _, _ => arr

/-- The row-emission loop of `get_results_df` (`eval_utils.py`, lines
260-334), restricted to the data the loop actually decides on: it walks the
duration cache zipped with the per-note label arrays, skips every note whose
duration-cache entry is exactly zero (`if duration == 0: continue`, lines
305-306), and emits one row per remaining note.  A row is modelled as the
tuple (duration, gt chord label, est chord label, gt key label, est key
label); the further derived columns of the source are functions of these. -/
def get_results_df_rows (durations : List ℚ) (gtChord estChord gtKey estKey : List L) :
    List (ℚ × L × L × L × L) :=
  ((durations.zip (gtChord.zip (estChord.zip (gtKey.zip estKey)))).filter
    fun p => !(p.1 == 0)).map fun p => (p.1, p.2.1, p.2.2.1, p.2.2.2.1, p.2.2.2.2)

/-- A Python runtime value, as far as the `==` comparisons of the key-color
branch of `get_results_annotation_df` are concerned: an integer (a pitch-class
tonic from `get_key_from_one_hot_index`), a single character (obtained by
tuple-unpacking a label string), or a `KeyMode` enum member (modelled by its
index).  Python's `==` between values of different types returns `False`
without raising. -/
inductive PyVal where
  | int : ℤ → PyVal
  | chr : Char → PyVal
  | mode : ℕ → PyVal
deriving DecidableEq

/-- Embedding of the key-color computation of `get_results_annotation_df`
exactly as written (`eval_utils.py`, lines 753-754, 759 and 772-778).  Line
754 reads `gt_tonic, gt_mode = key_label_list[gt_key_label]`: it
tuple-unpacks an entry of `key_label_list` — a list of label *strings* — so
the unpack succeeds only when the string has exactly two characters (returning
`none` models the `ValueError` raised otherwise) and yields two characters.
Line 759 reads `est_tonic, est_mode = key_list[est_key_label]`, a genuine
(tonic, mode) pair.  The color is then chosen by lines 773-778: green when
both tonic and mode compare equal, orange when only the tonic does, red
otherwise. -/
def key_color_as_written (key_label_list : ℕ → String) (key_list : ℕ → ℤ × ℕ)
    (gt_key_label est_key_label : ℕ) : Option String :=
  match (key_label_list gt_key_label).toList with
  | [t, m] =>
    let est := key_list est_key_label
    some
      (if (PyVal.chr t == PyVal.int est.1) && (PyVal.chr m == PyVal.mode est.2) then "green"
       else if PyVal.chr t == PyVal.int est.1 then "orange"
       else "red")
  | _ => none

/-- The chord-color computation of `get_results_annotation_df`
(`eval_utils.py`, lines 804-816): green on exact (root, type, inversion)
match, orange when the roots match and the `TRIAD_REDUCTION` images of the two
chord types match, red otherwise.  `triad` is the `TRIAD_REDUCTION` lookup
(defined in `data_types.py`, outside these sources, hence kept abstract). -/
def chord_color (triad : ℕ → ℕ) (gt_root est_root : ℤ) (gt_type est_type : ℕ)
    (gt_inv est_inv : ℕ) : String :=
  if gt_root = est_root ∧ gt_type = est_type ∧ gt_inv = est_inv then "green"
  else if gt_root = est_root ∧ triad gt_type = triad est_type then "orange"
  else "red"

/-- Python list-index normalisation for a slice bound: a negative bound counts
from the end of the list and is clamped at 0, a non-negative bound is clamped
at the length. -/
def pyIndexNorm (len : ℕ) (i : ℤ) : ℕ :=
  if i < 0 then (max ((len : ℤ) + i) 0).toNat else min i.toNat len

/-- Python slice `l[a:b]` with (possibly negative) integer bounds. -/
def pySlice (l : List γ) (a b : ℤ) : List γ :=
  (l.drop (pyIndexNorm l.length a)).take (pyIndexNorm l.length b - pyIndexNorm l.length a)

/-- Python slice `l[a:]` with a (possibly negative) integer bound. -/
def pySliceFrom (l : List γ) (a : ℤ) : List γ :=
  l.drop (pyIndexNorm l.length a)

/-- The loop of CPython's `bisect.bisect_left(a, x, lo, hi)`:
`while lo < hi: mid = (lo + hi) // 2; if a[mid] < x: lo = mid + 1 else: hi =
mid; return lo`.  The loop shrinks `hi - lo` by at least one per iteration, so
running it with `len(a) + 1` units of fuel (first argument) reproduces it
exactly whenever `hi - lo ≤ len(a)`; `a[mid]` is modelled by `getD` with an
arbitrary default, and `mid` is in bounds whenever `lo < hi ≤ len(a)`. -/
def bisect_left_rec [LinearOrder α] (a : List α) (x : α) : ℕ → ℕ → ℕ → ℕ
  | 0, lo, _ => lo
  | fuel + 1, lo, hi =>
    if lo < hi then
      if a.getD ((lo + hi) / 2) x < x then bisect_left_rec a x fuel ((lo + hi) / 2 + 1) hi
      else bisect_left_rec a x fuel lo ((lo + hi) / 2)
    else lo

/-- `bisect.bisect_left(a, x, lo)` (with the default `hi = len(a)`), as used on
line 284 of `piece.py`. -/
def bisect_left_from [LinearOrder α] (a : List α) (x : α) (lo : ℕ) : ℕ :=
  bisect_left_rec a x (a.length + 1) lo a.length

/-- `bisect.bisect_left(a, x)`, as used on line 276 of `piece.py` and line 73
of `forces.py`. -/
def bisect_left [LinearOrder α] (a : List α) (x : α) : ℕ :=
  bisect_left_from a x 0

/-- The `start_index` computation of `Piece.get_chords_within_range`
(`piece.py`, lines 276-279): `bisect_left` on the chord-change indices,
decremented (possibly to -1) when `start` is not itself a chord-change index,
to include the partial chord sounding at `start`. -/
def gcwr_start_index (ccis : List ℕ) (start : ℕ) : ℤ :=
  let si := bisect_left ccis start
  if si = ccis.length ∨ ccis.getD si 0 ≠ start then (si : ℤ) - 1 else (si : ℤ)

/-- Embedding of `Piece.get_chords_within_range` (`piece.py`, lines 251-286).
The leading `assert stop is None or stop >= start` is modelled by returning
`none`; otherwise the function returns the Python slice
`chords[start_index:]` or `chords[start_index:end_index]`. -/
def get_chords_within_range (chords : List γ) (ccis : List ℕ) (start : ℕ)
    (stop : Option ℕ) : Option (List γ) :=
  match stop with
  | none => some (pySliceFrom chords (gcwr_start_index ccis start))
  | some stp =>
    if stp < start then none
    else
      some (pySlice chords (gcwr_start_index ccis start)
        (bisect_left_from ccis stp (max (gcwr_start_index ccis start) 0).toNat))

/-- The Python exceptions that `convert_score_positions_to_note_indexes` can
raise. -/
inductive PyErr where
  | valueError : PyErr
  | indexError : PyErr
deriving DecidableEq

/-- The processing of a single force by
`convert_score_positions_to_note_indexes` (`forces.py`, lines 73-80):
`index = bisect.bisect_left(note_positions, force[:2])`, then
`note_positions[index]` — an `IndexError` when `index == len(note_positions)` —
is compared against the force's position, raising a `ValueError` on mismatch
and recording `index` on match. -/
def convert_one [LinearOrder α] (note_positions : List α) (force : α) :
    Except PyErr ℕ :=
  let index := bisect_left note_positions force
  match note_positions[index]? with
  | none => .error .indexError
  | some p => if p = force then .ok index else .error .valueError

/-- A Python loop that converts each element and lets the first raised
exception abort the whole call. -/
def traverseExcept (f : β → Except ε γ) : List β → Except ε (List γ)
  | [] => .ok []
  | b :: bs =>
    match f b, traverseExcept f bs with
    | .ok c, .ok cs => .ok (c :: cs)
    | .error e, _ => .error e
    | .ok _, .error e => .error e

/-- Embedding of `convert_score_positions_to_note_indexes` (`forces.py`, lines
48-82), restricted to the position component of each force (an optional id is
carried through unchanged by the source).  `note_positions` is
`[note.onset for note in piece.get_inputs()]`; the loop converts each force in
order and the first exception aborts the whole call. -/
def convert_score_positions_to_note_indexes [LinearOrder α]
    (note_positions : List α) (forces : List α) : Except PyErr (List ℕ) :=
  traverseExcept (convert_one note_positions) forces

/-- Modelled from the spec: the `Note` value object of `data/note.py` (absent
from the sources here), reduced to its serialised fields: pitch class, octave,
onset and offset positions `(measure index, rational offset)`, and rational
duration. -/
structure MNote where
  pitch_class : ℤ
  octave : ℤ
  onset : ℕ × ℚ
  offset : ℕ × ℚ
  duration : ℚ
deriving DecidableEq

/-- Modelled from the spec: the `Key` value object of `data/key.py` (absent
from the sources here), reduced to its serialised fields: tonic and mode plus
relative tonic and mode (modes modelled by their enum index). -/
structure MKey where
  tonic : ℤ
  mode : ℕ
  relative_tonic : ℤ
  relative_mode : ℕ
deriving DecidableEq

/-- A scalar value stored in a serialised `Note`/`Chord`/`Key` dictionary. -/
inductive DVal where
  | int : ℤ → DVal
  | nat : ℕ → DVal
  | rat : ℚ → DVal
  | pos : ℕ × ℚ → DVal
deriving DecidableEq

/-- Modelled from the spec: `Note.to_dict` of `data/note.py` (absent from the
sources here) returns the plain dictionary of the note's fields. -/
def MNote.to_dict (n : MNote) : List (String × DVal) :=
  [("pitch_class", .int n.pitch_class), ("octave", .int n.octave),
    ("onset", .pos n.onset), ("offset", .pos n.offset), ("duration", .rat n.duration)]

/-- Modelled from the spec: the keyword construction `Note(**note)` used by
`get_score_piece_from_dict` (`piece.py`, line 551) rebuilds a note from its
field dictionary, failing (`TypeError`, modelled as `none`) when a field is
missing or has the wrong shape. -/
def MNote.from_dict (d : List (String × DVal)) : Option MNote :=
  match d.lookup "pitch_class", d.lookup "octave", d.lookup "onset",
      d.lookup "offset", d.lookup "duration" with
  | some (.int pc), some (.int oct), some (.pos onp), some (.pos offp), some (.rat dur) =>
    some ⟨pc, oct, onp, offp, dur⟩
  | _, _, _, _, _ => none

/-- Modelled from the spec: `Chord.to_dict` of `data/chord.py` (absent from the
sources here), over the chord fields carried by this model. -/
def Chord.to_dict (c : Chord) : List (String × DVal) :=
  [("root", .int c.root), ("chord_type", .nat c.chord_type),
    ("inversion", .nat c.inversion), ("onset", .rat c.onset),
    ("offset", .rat c.offset), ("duration", .rat c.duration)]

/-- Modelled from the spec: the keyword construction `Chord(**chord)` used by
`get_score_piece_from_dict` (`piece.py`, line 552). -/
def Chord.from_dict (d : List (String × DVal)) : Option Chord :=
  match d.lookup "root", d.lookup "chord_type", d.lookup "inversion",
      d.lookup "onset", d.lookup "offset", d.lookup "duration" with
  | some (.int r), some (.nat t), some (.nat i), some (.rat onp), some (.rat offp),
      some (.rat dur) => some ⟨r, t, i, onp, offp, dur⟩
  | _, _, _, _, _, _ => none

/-- Modelled from the spec: `Key.to_dict` of `data/key.py` (absent from the
sources here). -/
def MKey.to_dict (k : MKey) : List (String × DVal) :=
  [("tonic", .int k.tonic), ("mode", .nat k.mode),
    ("relative_tonic", .int k.relative_tonic), ("relative_mode", .nat k.relative_mode)]

/-- Modelled from the spec: the keyword construction `Key(**key)` used by
`get_score_piece_from_dict` (`piece.py`, line 553). -/
def MKey.from_dict (d : List (String × DVal)) : Option MKey :=
  match d.lookup "tonic", d.lookup "mode", d.lookup "relative_tonic",
      d.lookup "relative_mode" with
  | some (.int t), some (.nat m), some (.int rt), some (.nat rm) => some ⟨t, m, rt, rm⟩
  | _, _, _, _ => none

/-- A value of the dictionary produced by `ScorePiece.to_dict`: a plain list of
serialised notes, chords or keys, or a plain list of indices or index pairs. -/
inductive PieceVal where
  | notes : List (List (String × DVal)) → PieceVal
  | chords : List (List (String × DVal)) → PieceVal
  | keys : List (List (String × DVal)) → PieceVal
  | nats : List ℕ → PieceVal
  | pairs : List (ℕ × ℕ) → PieceVal

/-- The `ScorePiece` state relevant to serialisation (`piece.py`, lines
405-415): the note, chord and key sequences and the three alignment arrays.
The `measures_df` and name are carried outside the dictionary by the source
and are not modelled. -/
structure ScorePiece where
  notes : List MNote
  chords : List Chord
  keys : List MKey
  chord_changes : List ℕ
  chord_ranges : List (ℕ × ℕ)
  key_changes : List ℕ

/-- Embedding of `ScorePiece.to_dict` (`piece.py`, lines 507-524): the
dictionary with exactly the six keys `notes`, `chords`, `keys`,
`chord_changes`, `chord_ranges`, `key_changes`, the first three holding the
per-element dictionaries and the last three the plain index lists. -/
def ScorePiece.to_dict (p : ScorePiece) : List (String × PieceVal) :=
  [("notes", .notes (p.notes.map MNote.to_dict)),
    ("chords", .chords (p.chords.map Chord.to_dict)),
    ("keys", .keys (p.keys.map MKey.to_dict)),
    ("chord_changes", .nats p.chord_changes),
    ("chord_ranges", .pairs p.chord_ranges),
    ("key_changes", .nats p.key_changes)]

/-- A Python list comprehension `[f(b) for b in bs]` whose body may fail
(modelled by `Option`): the whole comprehension fails when any element does. -/
def traverseOption (f : β → Option γ) : List β → Option (List γ)
  | [] => some []
  | b :: bs =>
    match f b, traverseOption f bs with
    | some c, some cs => some (c :: cs)
    | _, _ => none

/-- Embedding of `get_score_piece_from_dict` (`piece.py`, lines 527-558):
rebuild every note, chord and key from its dictionary and pass the three index
lists through unchanged. -/
def get_score_piece_from_dict (d : List (String × PieceVal)) : Option ScorePiece :=
  match d.lookup "notes", d.lookup "chords", d.lookup "keys",
      d.lookup "chord_changes", d.lookup "chord_ranges", d.lookup "key_changes" with
  | some (.notes ns), some (.chords cs), some (.keys ks), some (.nats cc),
      some (.pairs cr), some (.nats kc) =>
    match traverseOption MNote.from_dict ns, traverseOption Chord.from_dict cs,
        traverseOption MKey.from_dict ks with
    | some notes, some chords, some keys => some ⟨notes, chords, keys, cc, cr, kc⟩
    | _, _, _ => none
  | _, _, _, _, _, _ => none

/-! Lemmas and claim theorems. -/

lemma maskTail_get? (rep : α → α → Bool) (prev : α) (xs : List α) (i : ℕ) :
    (maskTail rep prev xs).get? i =
      match xs.get? i, (prev :: xs).get? i with
      | some b, some a => some (!(rep b a))
      | _, _ => none := by
  induction xs generalizing prev i with
  | nil => simp [maskTail]
  | cons x xs ih =>
    cases i with
    | zero => simp [maskTail]
    | succ i => simpa [maskTail] using ih x i

lemma applyTail_chain (rep : α → α → Bool) (merge : α → α → α)
    (H1 : ∀ x y, rep y x = true → ∀ z, rep z (merge x y) = rep z y)
    (H2 : ∀ x y z, rep (merge x y) z = rep x z) :
    ∀ (cs : List α) (prev last : α), (∀ z, rep z last = rep z prev) →
      List.Chain' (fun a b => rep b a = false)
        (applyTail merge last cs (maskTail rep prev cs)) ∧
      ∀ h ∈ (applyTail merge last cs (maskTail rep prev cs)).head?, ∀ z,
        rep h z = rep last z := by
  intro cs
  induction cs with
  | nil =>
    intro prev last _
    refine ⟨List.chain'_singleton last, ?_⟩
    intro h hh z
    simp [applyTail] at hh
    rw [hh]
  | cons c cs ih =>
    intro prev last hbehave
    cases hc : rep c prev with
    | true =>
      have hres : applyTail merge last (c :: cs) (maskTail rep prev (c :: cs))
          = applyTail merge (merge last c) cs (maskTail rep c cs) := by
        simp [maskTail, applyTail, hc]
      rw [hres]
      have hlast : rep c last = true := by rw [hbehave]; exact hc
      obtain ⟨hchain, hhead⟩ := ih c (merge last c) (H1 last c hlast)
      exact ⟨hchain, fun h hh z => by rw [hhead h hh z, H2]⟩
    | false =>
      have hres : applyTail merge last (c :: cs) (maskTail rep prev (c :: cs))
          = last :: applyTail merge c cs (maskTail rep c cs) := by
        simp [maskTail, applyTail, hc]
      rw [hres]
      obtain ⟨hchain, hhead⟩ := ih c c (fun _ => rfl)
      refine ⟨?_, ?_⟩
      · rw [List.chain'_cons']
        refine ⟨?_, hchain⟩
        intro h hh
        rw [hhead h hh last, hbehave]
        exact hc
      · intro h hh z
        simp only [List.head?_cons, Option.mem_def, Option.some.injEq] at hh
        rw [← hh]

lemma applyTail_of_chain (rep : α → α → Bool) (merge : α → α → α) :
    ∀ (cs : List α) (last : α),
      List.Chain' (fun a b => rep b a = false) (last :: cs) →
      applyTail merge last cs (maskTail rep last cs) = last :: cs := by
  intro cs
  induction cs with
  | nil => intro last _; rfl
  | cons c cs ih =>
    intro last hchain
    rw [List.chain'_cons] at hchain
    obtain ⟨hc, hchain⟩ := hchain
    have hres : applyTail merge last (c :: cs) (maskTail rep last (c :: cs))
        = last :: applyTail merge c cs (maskTail rep c cs) := by
      simp [maskTail, applyTail, hc]
    rw [hres, ih c hchain]

lemma reduce_with_merge_chain (rep : α → α → Bool) (merge : α → α → α)
    (H1 : ∀ x y, rep y x = true → ∀ z, rep z (merge x y) = rep z y)
    (H2 : ∀ x y z, rep (merge x y) z = rep x z) (l : List α) :
    List.Chain' (fun a b => rep b a = false) (reduce_with_merge rep merge l) := by
  cases l with
  | nil => exact List.chain'_nil
  | cons x xs =>
    exact (applyTail_chain rep merge H1 H2 xs x x (fun _ => rfl)).1

lemma reduce_with_merge_of_chain (rep : α → α → Bool) (merge : α → α → α)
    (l : List α) (h : List.Chain' (fun a b => rep b a = false) l) :
    reduce_with_merge rep merge l = l := by
  cases l with
  | nil => rfl
  | cons x xs =>
    exact applyTail_of_chain rep merge xs x h

lemma is_repeated_merge_right (ui : Bool) (x y : Chord)
    (h : y.is_repeated x ui = true) (z : Chord) :
    z.is_repeated (x.merge_with y) ui = z.is_repeated y ui := by
  cases ui <;>
    simp_all [Chord.is_repeated, Chord.merge_with, Bool.and_eq_true, beq_iff_eq]

lemma is_repeated_merge_left (ui : Bool) (x y z : Chord) :
    (x.merge_with y).is_repeated z ui = x.is_repeated z ui := rfl

/-- C1: `get_reduction_mask` keeps index 0 and marks index `i > 0` for dropping
exactly when `inputs[i].is_repeated(inputs[i-1])` holds for the original
pre-reduction neighbour; in the reduced chord sequence produced by applying the
mask with merging, no two consecutive elements satisfy the repeat predicate,
and running the reduction a second time yields the same sequence. -/
theorem C1_reduction_mask_merge_idempotent (ui : Bool) (inputs : List Chord)
    (h : inputs ≠ []) :
    (get_reduction_mask (fun next prev => next.is_repeated prev ui) inputs).head?
        = some true ∧
    (∀ i : ℕ, ∀ a ∈ inputs.get? i, ∀ b ∈ inputs.get? (i + 1),
      (get_reduction_mask (fun next prev => next.is_repeated prev ui) inputs).get? (i + 1)
        = some (!(b.is_repeated a ui))) ∧
    List.Chain' (fun a b => b.is_repeated a ui = false) (reduce_chords ui inputs) ∧
    reduce_chords ui (reduce_chords ui inputs) = reduce_chords ui inputs := by
  have hchain :
      List.Chain' (fun a b : Chord => b.is_repeated a ui = false)
        (reduce_chords ui inputs) :=
    reduce_with_merge_chain _ _
      (fun x y hxy z => is_repeated_merge_right ui x y hxy z)
      (fun x y z => is_repeated_merge_left ui x y z) inputs
  refine ⟨?_, ?_, hchain, ?_⟩
  · match inputs, h with
    | x :: xs, _ => rfl
  · intro i a ha b hb
    match inputs, h with
    | x :: xs, _ =>
      simp only [get_reduction_mask, List.get?_cons_succ]
      rw [maskTail_get? _ x xs i]
      simp only [List.get?_cons_succ] at hb
      rw [Option.mem_def] at ha hb
      rw [hb, ha]
  · exact reduce_with_merge_of_chain _ _ _ hchain

lemma exists_getElem?_eq_some {l : List β} {i : ℕ} (h : i < l.length) :
    ∃ u, l[i]? = some u := by
  rcases hu : l[i]? with _ | u
  · rw [List.getElem?_eq_none_iff] at hu
    omega
  · exact ⟨u, rfl⟩

lemma findIdx_le_of_getElem?_true {p : β → Bool} {xs : List β} {i : ℕ} {y : β}
    (hget : xs[i]? = some y) (hp : p y = true) : xs.findIdx p ≤ i := by
  by_contra hgt
  push_neg at hgt
  rcases List.getElem?_eq_some.mp hget with ⟨hlt, he⟩
  have hfalse := List.not_of_lt_findIdx hgt
  rw [he, hp] at hfalse
  exact Bool.true_eq_false.mp hfalse

lemma findIdx_ge_of_getElem?_false {p : β → Bool} {xs : List β} {i : ℕ}
    (hi : i ≤ xs.length) (h2 : ∀ j, j < i → ∀ y ∈ xs[j]?, p y = false) :
    i ≤ xs.findIdx p := by
  by_contra hgt
  push_neg at hgt
  have hTlen : xs.findIdx p < xs.length := lt_of_lt_of_le hgt hi
  obtain ⟨u, hu⟩ := exists_getElem?_eq_some hTlen
  have hpu : p u = true := List.findIdx_of_getElem?_eq_some hu
  have hfu := h2 (xs.findIdx p) hgt u hu
  rw [hfu] at hpu
  exact Bool.false_ne_true hpu

lemma advanceFrom_eq_findIdx [LinearOrder α] (notes : List (SNote α)) (c : α) :
    ∀ (s : List (SNote α)) (idx : ℕ), s = notes.drop idx →
      notes.findIdx (fun n => c ≤ n.onset) < notes.length →
      idx ≤ notes.findIdx (fun n => c ≤ n.onset) →
      advanceFrom c s idx = notes.findIdx (fun n => c ≤ n.onset) := by
  intro s
  induction s with
  | nil =>
    intro idx hs hT hidx
    have : notes.length ≤ idx := List.drop_eq_nil_iff.mp hs.symm
    omega
  | cons n s ih =>
    intro idx hs hT hidx
    have hget : notes[idx]? = some n := by
      have h0 : (notes.drop idx)[0]? = some n := by rw [← hs]; simp
      rwa [List.getElem?_drop] at h0
    cases s with
    | nil =>
      have hlen : notes.length = idx + 1 := by
        have := congrArg List.length hs
        simp [List.length_drop] at this
        rcases List.getElem?_eq_some.mp hget with ⟨hlt, _⟩
        omega
      have hred : advanceFrom c [n] idx = idx := rfl
      rw [hred]
      omega
    | cons n₂ rest =>
      by_cases hlt : n.onset < c
      · have hne : notes.findIdx (fun n => c ≤ n.onset) ≠ idx := by
          intro he
          have hp : (fun n : SNote α => decide (c ≤ n.onset)) n = true := by
            have hw : notes[notes.findIdx fun n : SNote α => decide (c ≤ n.onset)]?
                = some n := by
              rw [he]
              exact hget
            have hres := List.findIdx_of_getElem?_eq_some hw
            exact hres
          simp at hp
          exact absurd hp (not_le.mpr hlt)
        have hstep : advanceFrom c (n :: n₂ :: rest) idx
            = advanceFrom c (n₂ :: rest) (idx + 1) := by
          simp [advanceFrom, hlt]
        rw [hstep]
        refine ih (idx + 1) ?_ hT (by omega)
        rw [← List.tail_drop, ← hs]
        rfl
      · have hp : decide (c ≤ n.onset) = true := by simpa using not_lt.mp hlt
        have hle : notes.findIdx (fun n => c ≤ n.onset) ≤ idx :=
          findIdx_le_of_getElem?_true hget hp
        have hstep : advanceFrom c (n :: n₂ :: rest) idx = idx := by
          simp [advanceFrom, hlt]
        rw [hstep]
        omega

lemma advance_while_eq_findIdx [LinearOrder α] (notes : List (SNote α)) (c : α)
    (idx : ℕ) (hT : notes.findIdx (fun n => c ≤ n.onset) < notes.length)
    (hidx : idx ≤ notes.findIdx (fun n => c ≤ n.onset)) :
    advance_while notes c idx = notes.findIdx (fun n => c ≤ n.onset) :=
  advanceFrom_eq_findIdx notes c (notes.drop idx) idx rfl hT hidx

lemma chord_changes_loop_eq_map_findIdx [LinearOrder α] (notes : List (SNote α)) :
    ∀ (cs : List α) (idx : ℕ), List.Chain' (· ≤ ·) cs →
      (∀ c ∈ cs, ∃ n ∈ notes, c ≤ n.onset) →
      (∀ c ∈ cs.head?, idx ≤ notes.findIdx fun n => c ≤ n.onset) →
      chord_changes_loop notes cs idx
        = cs.map fun c => notes.findIdx fun n => c ≤ n.onset := by
  intro cs
  induction cs with
  | nil => intro idx _ _ _; rfl
  | cons c cs ih =>
    intro idx hchain hex hhead
    have hT : notes.findIdx (fun n => c ≤ n.onset) < notes.length := by
      refine List.findIdx_lt_length_of_exists ?_
      obtain ⟨n, hn, hcn⟩ := hex c (by simp)
      exact ⟨n, hn, by simpa using hcn⟩
    have hj : advance_while notes c idx = notes.findIdx fun n => c ≤ n.onset :=
      advance_while_eq_findIdx notes c idx hT (hhead c rfl)
    rw [List.chain'_cons'] at hchain
    obtain ⟨hrel, hchain⟩ := hchain
    simp only [chord_changes_loop, hj, List.map_cons, List.cons.injEq, true_and]
    refine ih _ hchain (fun x hx => hex x (by simp [hx])) ?_
    intro c₂ hc₂
    refine List.findIdx_le_findIdx ?_
    intro x _ hx
    have hcc₂ : c ≤ c₂ := hrel c₂ hc₂
    simp only [decide_eq_true_eq] at hx ⊢
    exact le_trans hcc₂ hx

lemma get_range_start_eq_findIdx [LinearOrder α] (c : α) (notes : List (SNote α)) :
    get_range_start c notes
      = notes.findIdx fun n => decide (c ≤ n.onset) || decide (c < n.offset) := by
  induction notes with
  | nil => rfl
  | cons n ns ih =>
    by_cases h : c ≤ n.onset ∨ c < n.offset
    · simp [get_range_start, h, List.findIdx_cons]
      rcases h with h | h <;> simp [h]
    · push_neg at h
      simp only [get_range_start, List.findIdx_cons]
      rw [if_neg (by push_neg; exact h)]
      have h1 : decide (c ≤ n.onset) = false := by
        simpa using not_le.mpr h.1
      have h2 : decide (c < n.offset) = false := by
        simpa using not_lt.mpr h.2
      simp [h1, h2, ih]

lemma chord_changes_loop_length [LinearOrder α] (notes : List (SNote α)) :
    ∀ (cs : List α) (idx : ℕ), (chord_changes_loop notes cs idx).length = cs.length := by
  intro cs
  induction cs with
  | nil => intro idx; rfl
  | cons c cs ih => intro idx; simp [chord_changes_loop, ih]

/-- C2: for each chord, `chord_changes[i]` is the index of the first note whose
onset is not earlier than chord `i`'s onset (the cursor computes exactly this
given sorted chord onsets and, for each chord, some note at or after it), and
`chord_ranges[i]` starts at `get_range_start`, the index of the first note
whose onset is at or after, or whose offset is strictly after, the chord's
onset. -/
theorem C2_chord_changes_and_ranges [LinearOrder α] (notes : List (SNote α))
    (chordOnsets : List α) (hc : List.Chain' (· ≤ ·) chordOnsets)
    (hex : ∀ c ∈ chordOnsets, ∃ n ∈ notes, c ≤ n.onset) :
    piece_chord_changes notes chordOnsets
        = (chordOnsets.map fun c => notes.findIdx fun n => c ≤ n.onset) ∧
    (piece_chord_ranges notes chordOnsets).map Prod.fst
        = (chordOnsets.map fun c => get_range_start c notes) ∧
    ∀ c : α, get_range_start c notes
        = notes.findIdx fun n => decide (c ≤ n.onset) || decide (c < n.offset) := by
  refine ⟨?_, ?_, fun c => get_range_start_eq_findIdx c notes⟩
  · exact chord_changes_loop_eq_map_findIdx notes chordOnsets 0 hc hex
      (fun c _ => Nat.zero_le _)
  · rw [piece_chord_ranges]
    refine List.map_fst_zip _ _ ?_
    cases chordOnsets with
    | nil => simp
    | cons c cs =>
      simp [piece_chord_changes, chord_changes_loop_length]

/-- Witness for C2 at two notes and two chords (positions in `ℕ`). -/
theorem C2_chord_changes_and_ranges_witness :
    piece_chord_changes ([⟨0, 1⟩, ⟨2, 3⟩] : List (SNote ℕ)) [0, 2]
        = (([0, 2] : List ℕ).map fun c =>
            ([⟨0, 1⟩, ⟨2, 3⟩] : List (SNote ℕ)).findIdx fun n => c ≤ n.onset) ∧
    (piece_chord_ranges ([⟨0, 1⟩, ⟨2, 3⟩] : List (SNote ℕ)) [0, 2]).map Prod.fst
        = (([0, 2] : List ℕ).map fun c =>
            get_range_start c ([⟨0, 1⟩, ⟨2, 3⟩] : List (SNote ℕ))) ∧
    ∀ c : ℕ, get_range_start c ([⟨0, 1⟩, ⟨2, 3⟩] : List (SNote ℕ))
        = ([⟨0, 1⟩, ⟨2, 3⟩] : List (SNote ℕ)).findIdx fun n =>
            decide (c ≤ n.onset) || decide (c < n.offset) :=
  C2_chord_changes_and_ranges ([⟨0, 1⟩, ⟨2, 3⟩] : List (SNote ℕ)) [0, 2]
    (by simp [List.chain'_cons]) (by decide)

lemma advanceFrom_ge [LinearOrder α] (c : α) :
    ∀ (s : List (SNote α)) (idx : ℕ), idx ≤ advanceFrom c s idx := by
  intro s
  induction s with
  | nil => intro idx; exact le_refl idx
  | cons n s ih =>
    intro idx
    cases s with
    | nil => exact le_refl idx
    | cons n₂ rest =>
      by_cases hlt : n.onset < c
      · have hstep : advanceFrom c (n :: n₂ :: rest) idx
            = advanceFrom c (n₂ :: rest) (idx + 1) := by simp [advanceFrom, hlt]
        rw [hstep]
        exact le_trans (by omega) (ih (idx + 1))
      · have hstep : advanceFrom c (n :: n₂ :: rest) idx = idx := by
          simp [advanceFrom, hlt]
        rw [hstep]

lemma advanceFrom_lt_length [LinearOrder α] (notes : List (SNote α)) (c : α) :
    ∀ (s : List (SNote α)) (idx : ℕ), s = notes.drop idx → idx < notes.length →
      advanceFrom c s idx < notes.length := by
  intro s
  induction s with
  | nil => intro idx _ h; exact h
  | cons n s ih =>
    intro idx hs h
    cases s with
    | nil => exact h
    | cons n₂ rest =>
      by_cases hlt : n.onset < c
      · have hstep : advanceFrom c (n :: n₂ :: rest) idx
            = advanceFrom c (n₂ :: rest) (idx + 1) := by simp [advanceFrom, hlt]
        rw [hstep]
        have hlen : (notes.drop idx).length = notes.length - idx := List.length_drop _ _
        rw [← hs] at hlen
        refine ih (idx + 1) ?_ (by simp at hlen; omega)
        rw [← List.tail_drop, ← hs]
        rfl
      · have hstep : advanceFrom c (n :: n₂ :: rest) idx = idx := by
          simp [advanceFrom, hlt]
        rw [hstep]
        exact h

lemma chord_changes_loop_chain_le [LinearOrder α] (notes : List (SNote α)) :
    ∀ (cs : List α) (idx : ℕ),
      List.Chain' (· ≤ ·) (chord_changes_loop notes cs idx) ∧
      ∀ j ∈ (chord_changes_loop notes cs idx).head?, idx ≤ j := by
  intro cs
  induction cs with
  | nil => intro idx; exact ⟨List.chain'_nil, by simp [chord_changes_loop]⟩
  | cons c cs ih =>
    intro idx
    obtain ⟨hchain, hhead⟩ := ih (advance_while notes c idx)
    refine ⟨?_, ?_⟩
    · rw [chord_changes_loop, List.chain'_cons']
      exact ⟨hhead, hchain⟩
    · intro j hj
      simp only [chord_changes_loop, List.head?_cons, Option.mem_def,
        Option.some.injEq] at hj
      rw [← hj]
      exact advanceFrom_ge c _ idx

lemma chord_changes_loop_lt_length [LinearOrder α] (notes : List (SNote α)) :
    ∀ (cs : List α) (idx : ℕ), idx < notes.length →
      ∀ j ∈ chord_changes_loop notes cs idx, j < notes.length := by
  intro cs
  induction cs with
  | nil => intro idx _ j hj; simp [chord_changes_loop] at hj
  | cons c cs ih =>
    intro idx hidx j hj
    have hadv : advance_while notes c idx < notes.length :=
      advanceFrom_lt_length notes c (notes.drop idx) idx rfl hidx
    simp only [chord_changes_loop, List.mem_cons] at hj
    rcases hj with hj | hj
    · rw [hj]; exact hadv
    · exact ih (advance_while notes c idx) hadv j hj

lemma select_mask_sublist : ∀ (l : List α) (m : List Bool), List.Sublist (select_mask l m) l := by
  intro l
  induction l with
  | nil => intro m; simp [select_mask]
  | cons x xs ih =>
    intro m
    cases m with
    | nil => simp [select_mask]
    | cons b bs =>
      cases b with
      | true => simpa [select_mask] using List.Sublist.cons₂ x (ih bs)
      | false => simpa [select_mask] using List.Sublist.cons x (ih bs)

/-- Counterexample to C3 as stated: with two sorted notes (a note held from
onset 0 to 1 and one from 4 to 5) and three sorted chords at onsets 0, 2 and 4,
the chord at onset 2 falls inside the held note, so `chord_changes` is
`[0, 1, 1]` — not strictly increasing. -/
theorem C3_counterexample_not_strictly_increasing :
    piece_chord_changes ([⟨0, 1⟩, ⟨4, 5⟩] : List (SNote ℕ)) [0, 2, 4] = [0, 1, 1] ∧
    ¬ List.Pairwise (· < ·)
        (piece_chord_changes ([⟨0, 1⟩, ⟨4, 5⟩] : List (SNote ℕ)) [0, 2, 4]) := by
  decide

/-- C3, amended: `chord_changes` is non-decreasing (not necessarily strictly
increasing) with every entry in `[0, len(notes))` whenever the piece has at
least one note, and `key_changes` is strictly increasing with every entry in
`[0, len(chords))` (where `keyRows` has one key-column row per reduced
chord). -/
theorem C3_amended_monotone_bounds [LinearOrder α] [DecidableEq ρ]
    (notes : List (SNote α)) (chordOnsets : List α) (keyRows : List ρ)
    (keys : List κ) (rep : κ → κ → Bool) (hne : notes ≠ []) :
    List.Chain' (· ≤ ·) (piece_chord_changes notes chordOnsets) ∧
    (∀ j ∈ piece_chord_changes notes chordOnsets, j < notes.length) ∧
    List.Pairwise (· < ·) (piece_key_changes keyRows keys rep) ∧
    (∀ k ∈ piece_key_changes keyRows keys rep, k < keyRows.length) := by
  have hpos : 0 < notes.length := List.length_pos.mpr hne
  have hsub : List.Sublist (piece_key_changes keyRows keys rep) (List.range keyRows.length) :=
    List.Sublist.trans (select_mask_sublist _ _) (select_mask_sublist _ _)
  refine ⟨(chord_changes_loop_chain_le notes chordOnsets 0).1,
    chord_changes_loop_lt_length notes chordOnsets 0 hpos, ?_, ?_⟩
  · exact (List.pairwise_lt_range _).sublist hsub
  · intro k hk
    exact List.mem_range.mp (hsub.subset hk)

/-- Witness for C3 (amended) at the concrete counterexample inputs, with two
key rows of which the second repeats the first. -/
theorem C3_amended_monotone_bounds_witness :
    List.Chain' (· ≤ ·)
      (piece_chord_changes ([⟨0, 1⟩, ⟨4, 5⟩] : List (SNote ℕ)) [0, 2, 4]) ∧
    (∀ j ∈ piece_chord_changes ([⟨0, 1⟩, ⟨4, 5⟩] : List (SNote ℕ)) [0, 2, 4],
      j < ([⟨0, 1⟩, ⟨4, 5⟩] : List (SNote ℕ)).length) ∧
    List.Pairwise (· < ·)
      (piece_key_changes [(0 : ℕ), 0, 1] [(0 : ℕ), 1] (fun a b => a == b)) ∧
    (∀ k ∈ piece_key_changes [(0 : ℕ), 0, 1] [(0 : ℕ), 1] (fun a b => a == b),
      k < ([(0 : ℕ), 0, 1] : List ℕ).length) :=
  C3_amended_monotone_bounds ([⟨0, 1⟩, ⟨4, 5⟩] : List (SNote ℕ)) [0, 2, 4]
    [(0 : ℕ), 0, 1] [(0 : ℕ), 1] (fun a b => a == b) (by decide)

lemma filterMap_ite_range (a b s : ℕ) (_hab : a ≤ b) :
    ∀ N, ((List.range N).filterMap fun r =>
        if a ≤ r ∧ r < b then some (s + (r - a)) else none)
      = List.range' s (min N b - a) := by
  intro N
  induction N with
  | zero => simp
  | succ N ih =>
    rw [List.range_succ, List.filterMap_append, ih]
    by_cases h1 : a ≤ N ∧ N < b
    · have hsing : (List.filterMap (fun r =>
          if a ≤ r ∧ r < b then some (s + (r - a)) else none) [N]) = [s + (N - a)] := by
        simp [h1]
      rw [hsing]
      have hmin1 : min N b - a = N - a := by omega
      have hmin2 : min (N + 1) b - a = (N - a) + 1 := by omega
      rw [hmin1, hmin2, List.range'_concat]
      simp
    · have hsing : (List.filterMap (fun r =>
          if a ≤ r ∧ r < b then some (s + (r - a)) else none) [N]) = [] := by
        simp only [List.filterMap_cons, List.filterMap_nil]
        rw [if_neg h1]
      rw [hsing, List.append_nil]
      have : min (N + 1) b - a = min N b - a := by omega
      rw [this]

/-- Counterexample to C4 as stated: for the 10-note piece and the chord over
notes `[3, 7)`, `window=5` yields `(7 - 3) + 2 * 5 = 14` feature rows, not 10
(the source allocates `window_offset_index - window_onset_index = 12 - (-2)`
rows), and row 9 holds note 7's vector rather than a zero row. -/
theorem C4_counterexample_row_count :
    (get_chord_note_input 10 3 7 5).length = 14 ∧
    ¬ (get_chord_note_input 10 3 7 5).length = 10 ∧
    (get_chord_note_input 10 3 7 5).get? 9 = some (some 7) := by
  decide

/-- C4, amended: `get_chord_note_input` returns
`(offset_index - onset_index) + 2 * window` rows; the non-padding rows are
exactly the vectors of notes `max(onset_index - window, 0) ..
min(offset_index + window, numNotes) - 1`, in order, each exactly once (the
window is clipped at the sequence bounds, zero rows pad the positions beyond
them, and padding never wraps around or repeats boundary notes); with
`window=0` on a chord over notes `[3, 7)` of a 10-note piece the result is
exactly the 4 note rows 3..6 with no zero rows, and with `window=5` it is 14
rows of which rows `[0, 2)` and `[12, 14)` are the zero rows. -/
theorem C4_amended_window_clip_pad (numNotes onset offset window : ℕ)
    (h1 : onset ≤ offset) (h2 : offset ≤ numNotes) :
    (get_chord_note_input numNotes onset offset window).length
        = (offset - onset) + 2 * window ∧
    (get_chord_note_input numNotes onset offset window).filterMap id
        = List.range' (onset - window)
            (min (offset + window) numNotes - (onset - window)) ∧
    get_chord_note_input 10 3 7 0 = [some 3, some 4, some 5, some 6] ∧
    get_chord_note_input 10 3 7 5
        = [none, none, some 0, some 1, some 2, some 3, some 4, some 5, some 6,
            some 7, some 8, some 9, none, none] := by
  refine ⟨?_, ?_, by decide, by decide⟩
  · simp only [get_chord_note_input, List.length_map, List.length_range]
    omega
  · simp only [get_chord_note_input, List.filterMap_map]
    have hfun : ∀ r ∈ List.range ((((offset : ℤ) + window) - ((onset : ℤ) - window)).toNat),
        (id ∘ fun (r : ℕ) =>
            if max ((onset : ℤ) - window) 0 ≤ ((onset : ℤ) - window) + (r : ℤ) ∧
                ((onset : ℤ) - window) + (r : ℤ) < min ((offset : ℤ) + window) (numNotes : ℤ)
            then some ((((onset : ℤ) - window) + (r : ℤ)).toNat) else none) r
          = (fun r : ℕ =>
              if window - onset ≤ r ∧ r < min (offset + window) numNotes + window - onset
              then some ((onset - window) + (r - (window - onset))) else none) r := by
      intro r _
      simp only [Function.comp, id]
      by_cases hc : window - onset ≤ r ∧ r < min (offset + window) numNotes + window - onset
      · rw [if_pos (by omega), if_pos hc]
        congr 1
        omega
      · rw [if_neg (by omega), if_neg hc]
    rw [List.filterMap_congr hfun,
      filterMap_ite_range (window - onset) (min (offset + window) numNotes + window - onset)
        (onset - window) (by omega) _]
    congr 1
    omega

/-- Witness for C4 (amended) at the concrete 10-note piece with the chord over
notes `[3, 7)` and `window = 5`. -/
theorem C4_amended_window_clip_pad_witness :
    (get_chord_note_input 10 3 7 5).length = (7 - 3) + 2 * 5 ∧
    (get_chord_note_input 10 3 7 5).filterMap id
        = List.range' (3 - 5) (min (7 + 5) 10 - (3 - 5)) ∧
    get_chord_note_input 10 3 7 0 = [some 3, some 4, some 5, some 6] ∧
    get_chord_note_input 10 3 7 5
        = [none, none, some 0, some 1, some 2, some 3, some 4, some 5, some 6,
            some 7, some 8, some 9, none, none] :=
  C4_amended_window_clip_pad 10 3 7 5 (by decide) (by decide)

/-- C5: `evaluate_features` returns the duration-weighted fraction of rows in
which every requested feature pair matches: 1 over a nonempty all-matching set
of positive total duration, 0 over an all-mismatching set, and 0 (without
raising) when the filter selects no rows. -/
theorem C5_evaluate_features_accuracy (rows : List ResultRow) (features : List String)
    (m : List Bool) :
    (rows ≠ [] → (∀ r ∈ rows, row_matches r features = true) →
      0 < (rows.map fun r => r.duration).sum →
      evaluate_features rows features none = 1) ∧
    ((∀ r ∈ rows, row_matches r features = false) →
      evaluate_features rows features none = 0) ∧
    (select_mask rows m = [] → evaluate_features rows features (some m) = 0) := by
  refine ⟨?_, ?_, ?_⟩
  · intro hne hall hpos
    have hlen : ¬ rows.length = 0 := by simpa using hne
    simp only [evaluate_features, if_neg hlen]
    have hmap : (rows.map fun r => if row_matches r features then r.duration else 0)
        = rows.map fun r => r.duration :=
      List.map_congr_left fun r hr => by rw [hall r hr]; simp
    rw [hmap, div_self (ne_of_gt hpos)]
  · intro hall
    by_cases hlen : rows.length = 0
    · simp [evaluate_features, hlen]
    · simp only [evaluate_features, if_neg hlen]
      have hmap : (rows.map fun r => if row_matches r features then r.duration else 0)
          = rows.map fun _ => (0 : ℚ) :=
        List.map_congr_left fun r hr => by rw [hall r hr]; simp
      rw [hmap]
      simp
  · intro hsel
    simp [evaluate_features, hsel]

/-- Witness for C5: a single matching row of duration 2 scores 1, a single
mismatching row scores 0, and an all-`False` filter scores 0. -/
theorem C5_evaluate_features_accuracy_witness :
    evaluate_features [⟨fun _ => 0, fun _ => 0, 2⟩] ["root"] none = 1 ∧
    evaluate_features [⟨fun _ => 0, fun _ => 1, 2⟩] ["root"] none = 0 ∧
    evaluate_features [⟨fun _ => 0, fun _ => 0, 2⟩] ["root"] (some [false]) = 0 :=
  ⟨(C5_evaluate_features_accuracy [⟨fun _ => 0, fun _ => 0, 2⟩] ["root"] []).1
      (by simp) (by decide) (by norm_num [List.sum_cons]),
    (C5_evaluate_features_accuracy [⟨fun _ => 0, fun _ => 1, 2⟩] ["root"] []).2.1
      (by decide),
    (C5_evaluate_features_accuracy [⟨fun _ => 0, fun _ => 0, 2⟩] ["root"] [false]).2.2
      rfl⟩

lemma assign_range_getElem? (arr : List L) (s e : ℕ) (v : L) (i : ℕ) :
    (assign_range arr s e v)[i]? = arr[i]?.map fun x => if s ≤ i ∧ i < e then v else x := by
  simp [assign_range]

lemma assign_from_getElem? (arr : List L) (s : ℕ) (v : L) (i : ℕ) :
    (assign_from arr s v)[i]? = arr[i]?.map fun x => if s ≤ i then v else x := by
  simp [assign_from]

lemma foldl_assign_length (segs : List (L × ℕ × ℕ)) :
    ∀ arr : List L,
      (segs.foldl (fun a seg => assign_range a seg.2.1 seg.2.2 seg.1) arr).length
        = arr.length := by
  induction segs with
  | nil => intro arr; rfl
  | cons seg segs ih =>
    intro arr
    rw [List.foldl_cons, ih]
    simp [assign_range]

lemma foldl_assign_not_covered (segs : List (L × ℕ × ℕ)) :
    ∀ (arr : List L) (i : ℕ), (∀ seg ∈ segs, ¬ (seg.2.1 ≤ i ∧ i < seg.2.2)) →
      (segs.foldl (fun a seg => assign_range a seg.2.1 seg.2.2 seg.1) arr)[i]?
        = arr[i]? := by
  induction segs with
  | nil => intro arr i _; rfl
  | cons seg segs ih =>
    intro arr i h
    rw [List.foldl_cons, ih _ i (fun sg hsg => h sg (List.mem_cons_of_mem seg hsg)),
      assign_range_getElem?]
    have hfn : (fun x : L => if seg.2.1 ≤ i ∧ i < seg.2.2 then seg.1 else x)
        = fun x => x :=
      funext fun x => if_neg (h seg (List.mem_cons_self seg segs))
    rw [hfn]
    cases arr[i]? <;> rfl

lemma foldl_assign_covered (segs : List (L × ℕ × ℕ)) :
    ∀ (arr : List L) (j i : ℕ) (v : L) (s e : ℕ),
      segs[j]? = some (v, s, e) → s ≤ i → i < e →
      (∀ k, j < k → ∀ seg ∈ segs[k]?, i < seg.2.1) →
      i < arr.length →
      (segs.foldl (fun a seg => assign_range a seg.2.1 seg.2.2 seg.1) arr)[i]?
        = some v := by
  induction segs with
  | nil => intro arr j i v s e hj; simp at hj
  | cons seg segs ih =>
    intro arr j i v s e hj hsi hie hk hilen
    cases j with
    | zero =>
      have hseg : seg = (v, s, e) := by simpa using hj
      subst hseg
      rw [List.foldl_cons]
      rw [foldl_assign_not_covered segs _ i ?_]
      · rw [assign_range_getElem?]
        rcases hx : arr[i]? with _ | x
        · rw [List.getElem?_eq_none_iff] at hx
          omega
        · simp [hsi, hie]
      · intro sg hsg
        obtain ⟨k, hk'⟩ := List.mem_iff_getElem?.mp hsg
        have := hk (k + 1) (by omega) sg (by simpa using hk')
        omega
    | succ j =>
      rw [List.foldl_cons]
      refine ih _ j i v s e (by simpa using hj) hsi hie ?_ ?_
      · intro k hkj sg hsg
        exact hk (k + 1) (by omega) sg (by simpa using hsg)
      · simpa [assign_range] using hilen

lemma changes_mono_getElem? (changes : List ℕ)
    (hsorted : List.Chain' (· ≤ ·) changes) :
    ∀ a b : ℕ, a ≤ b → ∀ x ∈ changes[a]?, ∀ y ∈ changes[b]?, x ≤ y := by
  intro a b hab x hx y hy
  rcases Nat.lt_or_ge a b with hlt | hge
  · have hpair := List.chain'_iff_pairwise.mp hsorted
    rw [List.pairwise_iff_getElem] at hpair
    rw [Option.mem_def, List.getElem?_eq_some] at hx hy
    obtain ⟨ha, hxa⟩ := hx
    obtain ⟨hb, hyb⟩ := hy
    have := hpair a b ha hb hlt
    rw [hxa, hyb] at this
    exact this
  · have hba : a = b := by omega
    subst hba
    rw [Option.mem_def] at hx hy
    rw [hx] at hy
    injection hy with h
    exact le_of_eq h

lemma filter_nonzero_fst_sum (l : List (ℚ × β)) :
    ((l.filter fun p => !(p.1 == 0)).map fun p => p.1).sum
      = (l.map fun p => p.1).sum := by
  induction l with
  | nil => rfl
  | cons p l ih =>
    by_cases hp : p.1 = 0
    · simp [List.filter_cons, hp, ih]
    · simp [List.filter_cons, hp, ih]

/-- C6: `get_results_df` broadcasts each ground-truth segment's label across
the note indices `[start, end)` it covers, broadcasts the final label from the
last change index through the end of the note array, and omits every note
whose duration-cache entry is exactly zero, so such notes contribute no row,
no weight and no count to the result. -/
theorem C6_results_df_broadcast_zero_skip (n : ℕ) (labels : List L)
    (changes : List ℕ) (d : L) (hsorted : List.Chain' (· ≤ ·) changes) :
    (∀ j : ℕ, ∀ v ∈ labels[j]?, ∀ s ∈ changes[j]?, ∀ e ∈ changes[j + 1]?,
      ∀ i, s ≤ i → i < e → i < n →
        (broadcast_labels n labels changes d)[i]? = some v) ∧
    (∀ v ∈ labels.getLast?, ∀ s ∈ changes.getLast?,
      ∀ i, s ≤ i → i < n → (broadcast_labels n labels changes d)[i]? = some v) ∧
    ∀ (durations : List ℚ) (gtC estC gtK estK : List L),
      (∀ p ∈ get_results_df_rows durations gtC estC gtK estK, p.1 ≠ 0) ∧
      ((get_results_df_rows durations gtC estC gtK estK).map fun p => p.1).sum
        = ((durations.zip (gtC.zip (estC.zip (gtK.zip estK)))).map fun p => p.1).sum ∧
      (get_results_df_rows durations gtC estC gtK estK).length
        = (durations.zip (gtC.zip (estC.zip (gtK.zip estK)))).countP
            fun p => !(p.1 == 0) := by
  refine ⟨?_, ?_, ?_⟩
  · intro j v hv s hs e he i hsi hie hin
    have hlabne : labels ≠ [] := by
      intro hnil
      rw [hnil] at hv
      simp at hv
    have hchgne : changes ≠ [] := by
      intro hnil
      rw [hnil] at hs
      simp at hs
    obtain ⟨vl, hvl⟩ := Option.isSome_iff_exists.mp (List.getLast?_isSome.mpr hlabne)
    obtain ⟨sl, hsl⟩ := Option.isSome_iff_exists.mp (List.getLast?_isSome.mpr hchgne)
    have hjlt : j + 1 < changes.length := (List.getElem?_eq_some.mp he).1
    have hesl : e ≤ sl := by
      refine changes_mono_getElem? changes hsorted (j + 1) (changes.length - 1)
        (by omega) e he sl ?_
      rw [← List.getLast?_eq_getElem?]
      exact hsl
    have hseg : (broadcast_segments labels changes)[j]? = some (v, s, e) := by
      rw [broadcast_segments, List.getElem?_zip_eq_some]
      refine ⟨hv, ?_⟩
      rw [List.getElem?_zip_eq_some]
      exact ⟨hs, by simpa using he⟩
    rw [broadcast_labels, hvl, hsl]
    rw [assign_from_getElem?]
    have harr : (List.foldl (fun a seg => assign_range a seg.2.1 seg.2.2 seg.1)
        (List.replicate n d) (broadcast_segments labels changes))[i]? = some v := by
      refine foldl_assign_covered _ _ j i v s e hseg hsi hie ?_ (by simpa using hin)
      intro k hkj sg hsg
      rw [Option.mem_def, broadcast_segments, List.getElem?_zip_eq_some] at hsg
      obtain ⟨-, hsg2⟩ := hsg
      rw [List.getElem?_zip_eq_some] at hsg2
      obtain ⟨hsgs, -⟩ := hsg2
      have hek : e ≤ sg.2.1 :=
        changes_mono_getElem? changes hsorted (j + 1) k (by omega) e he sg.2.1 hsgs
      omega
    rw [harr]
    have hnsl : ¬ sl ≤ i := by omega
    simp [hnsl]
  · intro v hv s hs i hsi hin
    rw [broadcast_labels, Option.mem_def.mp hv, Option.mem_def.mp hs]
    rw [assign_from_getElem?]
    have hlen : (List.foldl (fun a seg => assign_range a seg.2.1 seg.2.2 seg.1)
        (List.replicate n d) (broadcast_segments labels changes)).length = n := by
      rw [foldl_assign_length]
      exact List.length_replicate n d
    rcases hx : (List.foldl (fun a seg => assign_range a seg.2.1 seg.2.2 seg.1)
        (List.replicate n d) (broadcast_segments labels changes))[i]? with _ | x
    · rw [List.getElem?_eq_none_iff, hlen] at hx
      omega
    · rw [hx]
      simp [hsi]
  · intro durations gtC estC gtK estK
    refine ⟨?_, ?_, ?_⟩
    · intro p hp
      obtain ⟨q, hq, hqp⟩ := List.mem_map.mp hp
      have hpred := (List.mem_filter.mp hq).2
      simp only [Bool.not_eq_eq_eq_not, Bool.not_true, beq_eq_false_iff_ne] at hpred
      rw [← hqp]
      exact hpred
    · rw [get_results_df_rows, List.map_map]
      have hcomp : ((fun p : ℚ × L × L × L × L => p.1) ∘
          fun p : ℚ × (L × L × L × L) => (p.1, p.2.1, p.2.2.1, p.2.2.2.1, p.2.2.2.2))
            = fun p : ℚ × (L × L × L × L) => p.1 := rfl
      rw [hcomp]
      exact filter_nonzero_fst_sum _
    · rw [get_results_df_rows, List.length_map, List.countP_eq_length_filter]

/-- Witness for C6: four notes, two segments (labels 10 and 20, changes at
notes 0 and 2), and a duration cache with a zero entry. -/
theorem C6_results_df_broadcast_zero_skip_witness :
    (∀ j : ℕ, ∀ v ∈ ([10, 20] : List ℕ)[j]?, ∀ s ∈ ([0, 2] : List ℕ)[j]?,
      ∀ e ∈ ([0, 2] : List ℕ)[j + 1]?,
      ∀ i, s ≤ i → i < e → i < 4 →
        (broadcast_labels 4 [10, 20] [0, 2] 0)[i]? = some v) ∧
    (∀ v ∈ ([10, 20] : List ℕ).getLast?, ∀ s ∈ ([0, 2] : List ℕ).getLast?,
      ∀ i, s ≤ i → i < 4 → (broadcast_labels 4 [10, 20] [0, 2] 0)[i]? = some v) ∧
    ∀ (durations : List ℚ) (gtC estC gtK estK : List ℕ),
      (∀ p ∈ get_results_df_rows durations gtC estC gtK estK, p.1 ≠ 0) ∧
      ((get_results_df_rows durations gtC estC gtK estK).map fun p => p.1).sum
        = ((durations.zip (gtC.zip (estC.zip (gtK.zip estK)))).map fun p => p.1).sum ∧
      (get_results_df_rows durations gtC estC gtK estK).length
        = (durations.zip (gtC.zip (estC.zip (gtK.zip estK)))).countP
            fun p => !(p.1 == 0) :=
  C6_results_df_broadcast_zero_skip 4 [10, 20] [0, 2] 0 (by simp [List.chain'_cons])

/-- C7, on the code as written: because line 754 of `eval_utils.py`
tuple-unpacks an entry of `key_label_list` (a list of label strings) instead of
`key_list`, the ground-truth "tonic" and "mode" are characters while the
estimated ones are an integer and an enum member, so both equality tests of the
key-color branch are Python `==` comparisons across types and always `False`:
whenever the function emits a key color at all, that color is `"red"`, even
when the two keys agree exactly — the green and orange tiers of the claim are
unreachable. -/
theorem C7_key_color_always_red (key_label_list : ℕ → String)
    (key_list : ℕ → ℤ × ℕ) (g e : ℕ) (c : String)
    (h : key_color_as_written key_label_list key_list g e = some c) : c = "red" := by
  unfold key_color_as_written at h
  rcases hl : (key_label_list g).toList with _ | ⟨t, _ | ⟨m, _ | ⟨x, xs⟩⟩⟩ <;>
    rw [hl] at h
  · simp at h
  · simp at h
  · have h1 : (PyVal.chr t == PyVal.int (key_list e).1) = false :=
      beq_eq_false_iff_ne.mpr (fun hc => PyVal.noConfusion hc)
    have h2 : (PyVal.chr m == PyVal.mode (key_list e).2) = false :=
      beq_eq_false_iff_ne.mpr (fun hc => PyVal.noConfusion hc)
    simp [h1, h2] at h
    exact h.symm
  · simp at h

/-- Witness for C7 at a concrete failing input: the ground truth and the
estimate denote the same key (both one-hot index 0, with `key_list` mapping it
to tonic 0, mode 0, and a two-character label), yet the emitted color is
`"red"` where the claim requires `"green"`. -/
theorem C7_key_color_always_red_witness :
    key_color_as_written (fun _ => "Cm") (fun _ => (0, 0)) 0 0 = some "red" ∧
    "red" = "red" :=
  ⟨by decide, C7_key_color_always_red (fun _ => "Cm") (fun _ => (0, 0)) 0 0 "red"
    (by decide)⟩

lemma traverseOption_map_roundtrip (f : β → Option γ) (g : γ → β)
    (h : ∀ x, f (g x) = some x) :
    ∀ l : List γ, traverseOption f (l.map g) = some l := by
  intro l
  induction l with
  | nil => rfl
  | cons x l ih => simp [traverseOption, h x, ih]

/-- C9: the dictionary produced by `ScorePiece.to_dict` has exactly the keys
`notes`, `chords`, `keys`, `chord_changes`, `chord_ranges`, `key_changes`,
each holding a plain list, and `get_score_piece_from_dict` rebuilds the very
same piece from it: equal note, chord and key sequences and identical
`chord_changes`, `chord_ranges` and `key_changes` arrays. -/
theorem C9_to_dict_round_trip (p : ScorePiece) :
    p.to_dict.map Prod.fst
        = ["notes", "chords", "keys", "chord_changes", "chord_ranges",
            "key_changes"] ∧
    get_score_piece_from_dict p.to_dict = some p := by
  refine ⟨rfl, ?_⟩
  have hn : traverseOption MNote.from_dict (p.notes.map MNote.to_dict)
      = some p.notes :=
    traverseOption_map_roundtrip MNote.from_dict MNote.to_dict (fun x => rfl) p.notes
  have hc : traverseOption Chord.from_dict (p.chords.map Chord.to_dict)
      = some p.chords :=
    traverseOption_map_roundtrip Chord.from_dict Chord.to_dict (fun x => rfl) p.chords
  have hk : traverseOption MKey.from_dict (p.keys.map MKey.to_dict)
      = some p.keys :=
    traverseOption_map_roundtrip MKey.from_dict MKey.to_dict (fun x => rfl) p.keys
  simp [get_score_piece_from_dict, ScorePiece.to_dict, List.lookup, hn, hc, hk]

lemma pairwise_le_getElem? [LinearOrder α] {l : List α}
    (h : List.Pairwise (· ≤ ·) l) :
    ∀ i j : ℕ, i ≤ j → ∀ u ∈ l[i]?, ∀ v ∈ l[j]?, u ≤ v := by
  intro i j hij u hu v hv
  rcases Nat.lt_or_ge i j with hlt | hge
  · rw [List.pairwise_iff_getElem] at h
    rw [Option.mem_def, List.getElem?_eq_some] at hu hv
    obtain ⟨hi, hui⟩ := hu
    obtain ⟨hj, hvj⟩ := hv
    have hres := h i j hi hj hlt
    rw [hui, hvj] at hres
    exact hres
  · have hij' : i = j := by omega
    subst hij'
    rw [Option.mem_def] at hu hv
    rw [hu] at hv
    injection hv with hv
    exact le_of_eq hv

lemma bisect_left_rec_eq_findIdx [LinearOrder α] {a : List α} {x : α}
    (hs : List.Pairwise (· ≤ ·) a) :
    ∀ (fuel lo hi : ℕ), lo ≤ hi → hi ≤ a.length → hi - lo < fuel →
      (∀ i, i < lo → ∀ y ∈ a[i]?, y < x) →
      (∀ i, hi ≤ i → ∀ y ∈ a[i]?, x ≤ y) →
      bisect_left_rec a x fuel lo hi = a.findIdx fun y => decide (x ≤ y) := by
  intro fuel
  induction fuel with
  | zero => intro lo hi h1 h2 h3 _ _; omega
  | succ fuel ih =>
    intro lo hi hlohi hhilen hfuel hleft hright
    rw [bisect_left_rec]
    by_cases hlh : lo < hi
    · rw [if_pos hlh]
      have hmidlt : (lo + hi) / 2 < a.length := by omega
      obtain ⟨m, hm⟩ := exists_getElem?_eq_some hmidlt
      have hgetD : a.getD ((lo + hi) / 2) x = m := by
        rw [List.getD_eq_getElem?_getD, hm]
        rfl
      by_cases hmx : m < x
      · rw [if_pos (by rw [hgetD]; exact hmx)]
        refine ih ((lo + hi) / 2 + 1) hi (by omega) hhilen (by omega) ?_ hright
        intro i hi2 y hy
        have hle : y ≤ m :=
          pairwise_le_getElem? hs i ((lo + hi) / 2) (by omega) y hy m hm
        exact lt_of_le_of_lt hle hmx
      · rw [if_neg (by rw [hgetD]; exact hmx)]
        refine ih lo ((lo + hi) / 2) (by omega) (by omega) (by omega) hleft ?_
        intro i hi2 y hy
        have hge : m ≤ y :=
          pairwise_le_getElem? hs ((lo + hi) / 2) i hi2 m hm y hy
        exact le_trans (not_lt.mp hmx) hge
    · rw [if_neg hlh]
      have hlo : lo = hi := by omega
      by_cases hlolen : lo < a.length
      · obtain ⟨u, hu⟩ := exists_getElem?_eq_some hlolen
        have hplo : (fun y => decide (x ≤ y)) u = true := by
          simp only [decide_eq_true_eq]
          exact hright lo (by omega) u hu
        have hub : a.findIdx (fun y => decide (x ≤ y)) ≤ lo :=
          findIdx_le_of_getElem?_true hu hplo
        have hlb : lo ≤ a.findIdx fun y => decide (x ≤ y) := by
          refine findIdx_ge_of_getElem?_false (by omega) ?_
          intro j hj y hy
          have hjy := hleft j hj y hy
          simpa using not_le.mpr hjy
        omega
      · have hloT : a.findIdx (fun y => decide (x ≤ y)) = a.length := by
          refine List.findIdx_eq_length_of_false ?_
          intro y hy
          obtain ⟨j, hj⟩ := List.mem_iff_getElem?.mp hy
          have hjlt : j < a.length := (List.getElem?_eq_some.mp hj).1
          have hjy := hleft j (by omega) y (by exact hj)
          simpa using not_le.mpr hjy
        omega

lemma bisect_left_eq_findIdx [LinearOrder α] (a : List α) (x : α)
    (hs : List.Pairwise (· ≤ ·) a) :
    bisect_left a x = a.findIdx fun y => decide (x ≤ y) := by
  rw [bisect_left, bisect_left_from]
  refine bisect_left_rec_eq_findIdx hs (a.length + 1) 0 a.length (by omega) le_rfl
    (by omega) ?_ ?_
  · intro i hi y hy
    omega
  · intro i hi y hy
    rw [Option.mem_def, List.getElem?_eq_some] at hy
    obtain ⟨hlt, -⟩ := hy
    omega

lemma convert_one_of_mem [LinearOrder α] {positions : List α} {f : α}
    (hs : List.Pairwise (· ≤ ·) positions) (hmem : f ∈ positions) :
    convert_one positions f = .ok (positions.findIdx fun y => decide (f ≤ y)) ∧
    positions[positions.findIdx fun y => decide (f ≤ y)]? = some f := by
  have hT : positions.findIdx (fun y => decide (f ≤ y)) < positions.length :=
    List.findIdx_lt_length_of_exists ⟨f, hmem, by simp⟩
  obtain ⟨k, hk⟩ := List.mem_iff_getElem?.mp hmem
  have hTk : positions.findIdx (fun y => decide (f ≤ y)) ≤ k :=
    findIdx_le_of_getElem?_true hk (by simp)
  obtain ⟨u, hu⟩ := exists_getElem?_eq_some hT
  have hfle : f ≤ u := by
    have hp := List.findIdx_of_getElem?_eq_some hu
    simpa using hp
  have hgef : u ≤ f := pairwise_le_getElem? hs _ k hTk u hu f hk
  have heq : positions[positions.findIdx fun y => decide (f ≤ y)]? = some f := by
    rw [hu]
    exact congrArg some (le_antisymm hgef hfle)
  refine ⟨?_, heq⟩
  simp [convert_one, bisect_left_eq_findIdx positions f hs, heq]

lemma convert_one_of_not_mem [LinearOrder α] {positions : List α} {f : α}
    (hs : List.Pairwise (· ≤ ·) positions) (hnm : f ∉ positions) :
    convert_one positions f
      = .error (if ∃ p ∈ positions, f ≤ p then PyErr.valueError
          else PyErr.indexError) := by
  by_cases hex : ∃ p ∈ positions, f ≤ p
  · rw [if_pos hex]
    obtain ⟨p, hp, hfp⟩ := hex
    have hT : positions.findIdx (fun y => decide (f ≤ y)) < positions.length :=
      List.findIdx_lt_length_of_exists ⟨p, hp, by simpa using hfp⟩
    obtain ⟨u, hu⟩ := exists_getElem?_eq_some hT
    have hne : u ≠ f := by
      intro he
      exact hnm (he ▸ List.getElem?_mem hu)
    simp [convert_one, bisect_left_eq_findIdx positions f hs, hu, hne]
  · rw [if_neg hex]
    push_neg at hex
    have hT : positions.findIdx (fun y => decide (f ≤ y)) = positions.length :=
      List.findIdx_eq_length_of_false fun y hy => by
        simpa using not_le.mpr (hex y hy)
    have hnone : positions[positions.length]? = none :=
      List.getElem?_eq_none_iff.mpr le_rfl
    simp [convert_one, bisect_left_eq_findIdx positions f hs, hT, hnone]

/-- Counterexample to C8 as stated: with sorted note onsets 0 and 1, the forced
position 5 is not a note onset, yet the conversion fails with an `IndexError`
(indexing `note_positions[2]`), not the claimed `ValueError`. -/
theorem C8_counterexample_index_error :
    convert_score_positions_to_note_indexes ([0, 1] : List ℤ) [5]
        = .error PyErr.indexError ∧
    PyErr.indexError ≠ PyErr.valueError :=
  ⟨rfl, by decide⟩

/-- C8, amended: `get_chords_within_range` fails its assertion exactly when
`stop` is given and `stop < start`; `convert_score_positions_to_note_indexes`
returns the matching note index for every forced position that is a note
onset, and raises for every other position — a `ValueError` when some onset is
at or after it, but an `IndexError` when it sorts after every note onset. -/
theorem C8_amended_structural_violations [LinearOrder α] (chords : List γ)
    (ccis : List ℕ) (start : ℕ) (stop : Option ℕ) (positions : List α)
    (forces : List α) (hs : List.Pairwise (· ≤ ·) positions) :
    (get_chords_within_range chords ccis start stop = none
        ↔ ∃ stp, stop = some stp ∧ stp < start) ∧
    (∀ f ∈ positions,
      convert_one positions f = .ok (positions.findIdx fun y => decide (f ≤ y)) ∧
      positions[positions.findIdx fun y => decide (f ≤ y)]? = some f) ∧
    (∀ f, f ∉ positions → convert_one positions f
        = .error (if ∃ p ∈ positions, f ≤ p then PyErr.valueError
            else PyErr.indexError)) ∧
    ((∀ f ∈ forces, f ∈ positions) →
      ∃ idxs, convert_score_positions_to_note_indexes positions forces
        = .ok idxs) := by
  refine ⟨?_, fun f hf => convert_one_of_mem hs hf,
    fun f hf => convert_one_of_not_mem hs hf, ?_⟩
  · cases stop with
    | none => simp [get_chords_within_range]
    | some stp =>
      by_cases h : stp < start <;> simp [get_chords_within_range, h]
  · induction forces with
    | nil => intro _; exact ⟨[], rfl⟩
    | cons f fs ih =>
      intro hall
      obtain ⟨idxs, hidxs⟩ := ih fun g hg => hall g (List.mem_cons_of_mem f hg)
      have h1 := (convert_one_of_mem hs (hall f (List.mem_cons_self f fs))).1
      refine ⟨(positions.findIdx fun y => decide (f ≤ y)) :: idxs, ?_⟩
      simp only [convert_score_positions_to_note_indexes] at hidxs ⊢
      rw [traverseExcept, h1, hidxs]

/-- Witness for C8 (amended) at concrete inputs: two chords with change
indices 0 and 5 queried over `[0, 3)`, and note onsets 0 and 1 with forced
positions 0 and 1. -/
theorem C8_amended_structural_violations_witness :
    (get_chords_within_range ([7, 8] : List ℕ) [0, 5] 0 (some 3) = none
        ↔ ∃ stp, (some 3 : Option ℕ) = some stp ∧ stp < 0) ∧
    (∀ f ∈ ([0, 1] : List ℤ),
      convert_one ([0, 1] : List ℤ) f
          = .ok (([0, 1] : List ℤ).findIdx fun y => decide (f ≤ y)) ∧
      ([0, 1] : List ℤ)[([0, 1] : List ℤ).findIdx fun y => decide (f ≤ y)]?
          = some f) ∧
    (∀ f, f ∉ ([0, 1] : List ℤ) → convert_one ([0, 1] : List ℤ) f
        = .error (if ∃ p ∈ ([0, 1] : List ℤ), f ≤ p then PyErr.valueError
            else PyErr.indexError)) ∧
    ((∀ f ∈ ([0, 1] : List ℤ), f ∈ ([0, 1] : List ℤ)) →
      ∃ idxs, convert_score_positions_to_note_indexes ([0, 1] : List ℤ) [0, 1]
        = .ok idxs) :=
  C8_amended_structural_violations ([7, 8] : List ℕ) [0, 5] 0 (some 3)
    ([0, 1] : List ℤ) [0, 1] (by simp [List.pairwise_cons])

/-- C10: a forced position sorting strictly after every note onset drives
`bisect_left` to `len(note_positions)`, so the subsequent indexing raises an
`IndexError` rather than the `ValueError` raised for other unaligned
positions; the `ValueError` is only produced for positions at or before the
last note onset. -/
theorem C10_upper_boundary_index_error [LinearOrder α] (positions : List α)
    (f : α) (hs : List.Pairwise (· ≤ ·) positions)
    (hafter : ∀ p ∈ positions, p < f) :
    bisect_left positions f = positions.length ∧
    convert_one positions f = .error PyErr.indexError ∧
    ∀ g : α, convert_one positions g = .error PyErr.valueError →
      ∃ p ∈ positions, g ≤ p := by
  have hlen : bisect_left positions f = positions.length := by
    rw [bisect_left_eq_findIdx positions f hs]
    refine List.findIdx_eq_length_of_false ?_
    intro y hy
    simpa using not_le.mpr (hafter y hy)
  have hnone : positions[positions.length]? = none :=
    List.getElem?_eq_none_iff.mpr le_rfl
  refine ⟨hlen, ?_, ?_⟩
  · simp [convert_one, hlen, hnone]
  · intro g hg
    by_contra hnex
    push_neg at hnex
    have hnm : g ∉ positions := fun hmem => absurd (hnex g hmem) (lt_irrefl g)
    have hconv := convert_one_of_not_mem hs hnm
    rw [if_neg (by push_neg; exact hnex)] at hconv
    rw [hconv] at hg
    injection hg with hg
    exact PyErr.noConfusion hg

/-- Witness for C10 at the note onsets 0 and 1 with the forced position 5. -/
theorem C10_upper_boundary_index_error_witness :
    bisect_left ([0, 1] : List ℤ) 5 = ([0, 1] : List ℤ).length ∧
    convert_one ([0, 1] : List ℤ) 5 = .error PyErr.indexError ∧
    ∀ g : ℤ, convert_one ([0, 1] : List ℤ) g = .error PyErr.valueError →
      ∃ p ∈ ([0, 1] : List ℤ), g ≤ p :=
  C10_upper_boundary_index_error ([0, 1] : List ℤ) 5
    (by simp [List.pairwise_cons]) (by decide)

/-- Witness for C1 at a concrete three-chord input: the second chord repeats
the first (same root 0, type 0, inversion 0, and its onset 1 equals the first
chord's offset); the third chord (root 5) does not. -/
theorem C1_reduction_mask_merge_idempotent_witness :
    (get_reduction_mask (fun next prev : Chord => next.is_repeated prev true)
        [⟨0, 0, 0, 0, 1, 1⟩, ⟨0, 0, 0, 1, 2, 1⟩, ⟨5, 0, 0, 2, 3, 1⟩]).head?
        = some true ∧
    (∀ i : ℕ, ∀ a ∈ ([⟨0, 0, 0, 0, 1, 1⟩, ⟨0, 0, 0, 1, 2, 1⟩,
        ⟨5, 0, 0, 2, 3, 1⟩] : List Chord).get? i,
      ∀ b ∈ ([⟨0, 0, 0, 0, 1, 1⟩, ⟨0, 0, 0, 1, 2, 1⟩,
        ⟨5, 0, 0, 2, 3, 1⟩] : List Chord).get? (i + 1),
      (get_reduction_mask (fun next prev : Chord => next.is_repeated prev true)
        [⟨0, 0, 0, 0, 1, 1⟩, ⟨0, 0, 0, 1, 2, 1⟩, ⟨5, 0, 0, 2, 3, 1⟩]).get? (i + 1)
        = some (!(b.is_repeated a true))) ∧
    List.Chain' (fun a b => b.is_repeated a true = false)
      (reduce_chords true [⟨0, 0, 0, 0, 1, 1⟩, ⟨0, 0, 0, 1, 2, 1⟩, ⟨5, 0, 0, 2, 3, 1⟩]) ∧
    reduce_chords true
        (reduce_chords true [⟨0, 0, 0, 0, 1, 1⟩, ⟨0, 0, 0, 1, 2, 1⟩, ⟨5, 0, 0, 2, 3, 1⟩])
      = reduce_chords true [⟨0, 0, 0, 0, 1, 1⟩, ⟨0, 0, 0, 1, 2, 1⟩, ⟨5, 0, 0, 2, 3, 1⟩] :=
  C1_reduction_mask_merge_idempotent true
    [⟨0, 0, 0, 0, 1, 1⟩, ⟨0, 0, 0, 1, 2, 1⟩, ⟨5, 0, 0, 2, 3, 1⟩] (by decide)

end HarmonicInference
